import Mathlib

/- Verification of the incremental merge / update-window logic of
   daily_market_price.py (class MarketDataManager).

   Modelling conventions:
   - A Python dict with string keys is an insertion-ordered association list
     (`Dict α`).  A genuine dict never holds two entries with the same key;
     statements that depend on that carry a `nodupKeys` hypothesis.
   - `dict.update` is `dictUpdate` (later entries overwrite in place, new keys
     are appended in order), `dict(sorted(d.items()))` is `sortByKey`
     (the items of a dict have pairwise-distinct keys, so Python's
     tuple-lexicographic sort is determined by the keys alone and any
     comparison sort yields the same list).
   - Python string comparison is code-point lexicographic; `charListLtb`
     implements it on the underlying character lists.
   - Calendar dates are represented by their rata-die day number
     (0001-01-01 = day 1, proleptic Gregorian); `parseDate` models
     `datetime.strptime(s, "%Y-%m-%d")` on the canonical zero-padded strings
     this program writes (returning `none` where strptime raises), and
     `formatDate` models `strftime("%Y-%m-%d")`.  `timedelta(days = k)` is
     addition of `k` to the day number.
   - Fallible paths (a `ValueError` from strptime aborting `process_market`)
     are `Option`: `none` is the raised exception. -/

namespace MarketDataManager

/-- Model of a Python dict with `String` keys: an insertion-ordered
association list. -/
abbrev Dict (α : Type) : Type := List (String × α)

/-- The keys of a dict, in insertion order. -/
def keys {α : Type} (l : Dict α) : List String := l.map Prod.fst

/-- The dict invariant: pairwise-distinct keys. -/
def nodupKeys {α : Type} (l : Dict α) : Prop := (keys l).Nodup

instance {α : Type} (l : Dict α) : Decidable (nodupKeys l) := by
  unfold nodupKeys; infer_instance

/-- Python `d[k]` / `d.get(k)`: the value at key `k`, if present. -/
def dictGet {α : Type} (l : Dict α) (k : String) : Option α :=
  (l.find? (fun p => decide (p.1 = k))).map Prod.snd

/-- Python `d[k] = v`: overwrite in place if `k` is present, else append. -/
def dictInsert {α : Type} (l : Dict α) (k : String) (v : α) : Dict α :=
  if l.any (fun p => decide (p.1 = k)) then
    l.map (fun p => if p.1 = k then (k, v) else p)
  else l ++ [(k, v)]

/-- Python `d.update(new)`: apply every assignment of `new` in order. -/
def dictUpdate {α : Type} (l new : Dict α) : Dict α :=
  new.foldl (fun acc p => dictInsert acc p.1 p.2) l

/-- Python string `<` on the underlying code-point lists
(lexicographic, shorter prefix first). -/
def charListLtb : List Char → List Char → Bool
  | [], [] => false
  | [], _ :: _ => true
  | _ :: _, [] => false
  | a :: as, b :: bs =>
    decide (a.toNat < b.toNat) || (decide (a.toNat = b.toNat) && charListLtb as bs)

/-- Python `s < t` for strings. -/
def strLtb (s t : String) : Bool := charListLtb s.data t.data

/-- Python `s <= t` for strings. -/
def strLeb (s t : String) : Bool := ! strLtb t s

/-- Ordered insertion used to realise Python `sorted` on dict items. -/
def insertSorted {α : Type} (p : String × α) : Dict α → Dict α
  | [] => [p]
  | q :: rest => if strLeb p.1 q.1 then p :: q :: rest else q :: insertSorted p rest

/-- Python `dict(sorted(d.items()))` for a dict `d` (distinct keys, so the
sort is determined by key comparison alone). -/
def sortByKey {α : Type} (l : Dict α) : Dict α := l.foldr insertSorted []

/-- Embedding of `MarketDataManager.merge_data(existing_data, new_data,
ticker)`: if the prior series is falsy (empty) the fresh series is returned
as is; otherwise the prior dict is copied, updated with the fresh one
(same-date entries overwritten by the fresh value), and re-keyed in sorted
order.  The `ticker` argument is unused, as in the source. -/
def merge_data {α : Type} (existing_data new_data : Dict α) (ticker : String) : Dict α :=
  if existing_data.isEmpty then new_data
  else sortByKey (dictUpdate existing_data new_data)

/-- The static `self.ticker_to_ric` table (Yahoo/FRED symbol to RIC). -/
def ticker_to_ric : Dict String := [
  ("^GSPC", ".SPX"), ("^IXIC", ".IXIC"), ("^SOX", ".SOX"), ("^DJI", ".DJI"),
  ("^TWII", ".TWII"), ("000001.SS", ".SSEC"), ("000300.SS", ".CSI300"),
  ("^HSI", ".HSI"), ("^KS11", ".KS11"), ("^GDAXI", ".GDAXI"), ("^N225", ".N225"),
  ("^FCHI", ".FCHI"),
  ("MSFT", "MSFT.O"), ("GOOGL", "GOOGL.O"), ("AMZN", "AMZN.O"), ("AAPL", "AAPL.O"),
  ("NVDA", "NVDA.O"), ("META", "META.O"), ("TSLA", "TSLA.O"), ("AVGO", "AVGO.O"),
  ("AMD", "AMD.O"), ("QCOM", "QCOM.O"), ("INTC", "INTC.O"), ("MU", "MU.O"),
  ("ASML", "ASML.O"), ("NFLX", "NFLX.O"), ("MRVL", "MRVL.O"), ("TSM", "TSM.N"),
  ("2330.TW", "2330.TW"), ("2317.TW", "2317.TW"), ("2454.TW", "2454.TW"),
  ("2308.TW", "2308.TW"), ("5347.TWO", "5347.TWO"), ("3443.TW", "3443.TW"),
  ("3374.TWO", "3374.TWO"), ("6789.TW", "6789.TW"),
  ("DGS3MO", "US3MT=RR"), ("DGS2", "US2YT=RR"), ("DGS5", "US5YT=RR"),
  ("DGS10", "US10YT=RR"), ("DGS30", "US30YT=RR"),
  ("DX-Y.NYB", ".DXY"), ("EURUSD=X", "EUR="), ("JPY=X", "JPY="), ("TWD=X", "TWD="),
  ("KRW=X", "KRW="), ("CNY=X", "CNY="),
  ("CL=F", "CLc1"), ("GC=F", "GCc1")]

/-- The static `self.market_data` table (asset class to symbol/name dict). -/
def market_data : Dict (Dict String) := [
  ("Equity_Index", [
    ("^GSPC", "S&P 500"), ("^IXIC", "Nasdaq"), ("^SOX", "SOX"),
    ("^DJI", "Dow Jones"), ("^TWII", "TWSE"), ("000001.SS", "SSE"),
    ("000300.SS", "CSI300"), ("^HSI", "HSI"), ("^KS11", "KOSPI"),
    ("^GDAXI", "DAX"), ("^N225", "Nikkei"), ("^FCHI", "CAC40")]),
  ("US_Stocks", [
    ("MSFT", "Microsoft"), ("GOOGL", "Google"), ("AMZN", "Amazon"),
    ("AAPL", "Apple"), ("NVDA", "NVIDIA"), ("META", "Meta"),
    ("TSLA", "Tesla"), ("AVGO", "Broadcom"), ("AMD", "AMD"),
    ("QCOM", "Qualcomm"), ("INTC", "Intel"), ("MU", "Micron"),
    ("ASML", "ASML"), ("NFLX", "Netflix"), ("MRVL", "Marvell"),
    ("TSM", "TSMC ADR")]),
  ("TW_Stocks", [
    ("2330.TW", "TSMC"), ("2317.TW", "Hon Hai"), ("2454.TW", "MediaTek"),
    ("2308.TW", "Delta"), ("5347.TWO", "Vanguard"), ("3443.TW", "Unichip"),
    ("3374.TWO", "Xintec"), ("6789.TW", "VisEra")]),
  ("US_Rates", [
    ("DGS3MO", "UST 3M"), ("DGS2", "UST 2Y"), ("DGS5", "UST 5Y"),
    ("DGS10", "UST 10Y"), ("DGS30", "UST 30Y")]),
  ("FX", [
    ("DX-Y.NYB", "DXY"), ("EURUSD=X", "EUR="), ("JPY=X", "JPY="),
    ("TWD=X", "TWD="), ("KRW=X", "KRW="), ("CNY=X", "CNY=")]),
  ("Commodity", [
    ("CL=F", "WTI Oil"), ("GC=F", "Gold")])]

/-- Python `self.ticker_to_ric.get(ticker, ticker)`. -/
def ricOf (ticker : String) : String := (dictGet ticker_to_ric ticker).getD ticker

/-- The name-lookup loop of `convert_to_ric_format`: the first asset-class
dict containing `ticker` provides the display name. -/
def findName (ticker : String) : Option String :=
  match market_data.find? (fun p => p.2.any (fun q => decide (q.1 = ticker))) with
  | some p => dictGet p.2 ticker
  | none => none

/-- Python `name or ticker` (both `None` and an empty string are falsy). -/
def displayName (ticker : String) : String :=
  match findName ticker with
  | some n => if n = "" then ticker else n
  | none => ticker

/-- One entry of a persisted document: `{"name": ..., "data": ...}`. -/
structure Entry (α : Type) where
  name : String
  data : Dict α
deriving DecidableEq

/-- Embedding of `MarketDataManager.convert_to_ric_format`. -/
def convert_to_ric_format {α : Type} (md : Dict (Dict α)) : Dict (Entry α) :=
  md.foldl (fun acc p => dictInsert acc (ricOf p.1) ⟨displayName p.1, p.2⟩) []

/-- Python `existing_data.get(ric, {}).get('data', {})` in `process_market`,
with `ric = self.ticker_to_ric.get(ticker, ticker)`. -/
def priorData {α : Type} (existing_data : Dict (Entry α)) (ticker : String) : Dict α :=
  ((dictGet existing_data (ricOf ticker)).map Entry.data).getD []

/-- The merge loop of `process_market`: one merged series per ticker present
in the fresh download `new_data`. -/
def mergedOf {α : Type} (existing_data : Dict (Entry α)) (new_data : Dict (Dict α)) :
    Dict (Dict α) :=
  new_data.map (fun p => (p.1, merge_data (priorData existing_data p.1) p.2 p.1))

/-- The persistence step of `process_market` (lines 441-462): the document
written by `save_to_json`, or `none` when `merged_data` is falsy and the
write is skipped. -/
def processWrite {α : Type} (existing_data : Dict (Entry α)) (new_data : Dict (Dict α)) :
    Option (Dict (Entry α)) :=
  if (mergedOf existing_data new_data).isEmpty then none
  else some (convert_to_ric_format (mergedOf existing_data new_data))

/-- The configured asset classes, in iteration order. -/
def markets : List String := keys market_data

/-- Embedding of `MarketDataManager.run`: each class's pipeline is an
arbitrary fallible computation `process`; the `try/except Exception`
around `process_market` is the handler that records a raised error next to
its class and moves on to the next class. -/
def run (process : String → Except String Unit) : List (String × Option String) :=
  markets.map (fun m =>
    match process m with
    | Except.ok _ => (m, none)
    | Except.error e => (m, some e))

/-- Gregorian leap year. -/
def isLeap (y : Int) : Prop := y % 4 = 0 ∧ (y % 100 ≠ 0 ∨ y % 400 = 0)

instance (y : Int) : Decidable (isLeap y) := by unfold isLeap; infer_instance

/-- Length of a month (`m` between 1 and 12). -/
def daysInMonth (y m : Int) : Int :=
  if m = 2 then (if isLeap y then 29 else 28)
  else if m = 4 ∨ m = 6 ∨ m = 9 ∨ m = 11 then 30
  else 31

/-- Rata-die day number of December 31 of year `y - 1` (so that day 1 is
0001-01-01). -/
def yearBase (y : Int) : Int :=
  365 * (y - 1) + (y - 1) / 4 - (y - 1) / 100 + (y - 1) / 400

/-- Days contributed by the full months before month `m` of year `y`. -/
def monthOffset (y m : Int) : Int :=
  (367 * m - 362) / 12 + (if m ≤ 2 then 0 else if isLeap y then -1 else -2)

/-- Rata-die day number of the proleptic-Gregorian date `y-m-d`. -/
def dayNumber (y m d : Int) : Int :=
  yearBase y + monthOffset y m + d

/-- A decimal digit character. -/
def isDig (c : Char) : Prop := 48 ≤ c.toNat ∧ c.toNat ≤ 57

instance (c : Char) : Decidable (isDig c) := by unfold isDig; infer_instance

/-- Numeric value of a digit character. -/
def dv (c : Char) : Int := (c.toNat : Int) - 48

/-- Day number of `y-m-d` when that is a real calendar date, else `none`
(strptime validates month range and day-in-month, and rejects year 0). -/
def dateFromYmd (y m d : Int) : Option Int :=
  if 1 ≤ y ∧ 1 ≤ m ∧ m ≤ 12 ∧ 1 ≤ d ∧ d ≤ daysInMonth y m then some (dayNumber y m d)
  else none

/-- Model of `datetime.strptime(s, "%Y-%m-%d")` on the canonical zero-padded
date strings this program writes: the rata-die day number of the date, or
`none` where strptime raises `ValueError`. -/
def parseDate (s : String) : Option Int :=
  match s.data with
  | [y1, y2, y3, y4, c1, m1, m2, c2, d1, d2] =>
    if c1 = '-' ∧ c2 = '-' ∧ isDig y1 ∧ isDig y2 ∧ isDig y3 ∧ isDig y4 ∧
        isDig m1 ∧ isDig m2 ∧ isDig d1 ∧ isDig d2 then
      dateFromYmd (1000 * dv y1 + 100 * dv y2 + 10 * dv y3 + dv y4)
        (10 * dv m1 + dv m2) (10 * dv d1 + dv d2)
    else none
  | _ => none

/-- Inverse of `dayNumber`: the `(y, m, d)` triple of a rata-die day number
(standard civil-from-days algorithm, shifted to the rata-die epoch). -/
def civilFromDays (n : Int) : Int × Int × Int :=
  let z := n + 305
  let era := (if 0 ≤ z then z else z - 146096) / 146097
  let doe := z - era * 146097
  let yoe := (doe - doe / 1460 + doe / 36524 - doe / 146096) / 365
  let y := yoe + era * 400
  let doy := doe - (365 * yoe + yoe / 4 - yoe / 100)
  let mp := (5 * doy + 2) / 153
  let d := doy - (153 * mp + 2) / 5 + 1
  let m := mp + (if mp < 10 then 3 else -9)
  (if m ≤ 2 then y + 1 else y, m, d)

/-- A digit character from a value in `0..9`. -/
def digitChar (n : Int) : Char := Char.ofNat (48 + n.toNat)

/-- Zero-padded two-digit numeral (strftime `%m`, `%d`). -/
def pad2 (n : Int) : String := String.mk [digitChar (n / 10), digitChar (n % 10)]

/-- Zero-padded four-digit numeral (strftime `%Y`). -/
def pad4 (n : Int) : String :=
  String.mk [digitChar (n / 1000), digitChar (n / 100 % 10),
    digitChar (n / 10 % 10), digitChar (n % 10)]

/-- Model of `strftime("%Y-%m-%d")` on a rata-die day number. -/
def formatDate (n : Int) : String :=
  pad4 (civilFromDays n).1 ++ "-" ++ pad2 (civilFromDays n).2.1 ++ "-" ++
    pad2 (civilFromDays n).2.2

/-- Python `max(iterable)` on strings: keep the current element unless a
later one compares strictly greater. -/
def listMax : List String → Option String
  | [] => none
  | x :: rest => some (rest.foldl (fun acc k => if strLtb acc k then k else acc) x)

/-- The scan of `process_market` lines 416-423: fold over the existing
entries, taking `max(item_data['data'].keys())` of every non-empty series,
parsing it, and keeping the latest.  The outer `none` is the `ValueError`
raised by strptime on an unparsable key. -/
def scanLatest {α : Type} : List (Entry α) → Option Int → Option (Option Int)
  | [], acc => some acc
  | e :: rest, acc =>
    if e.data.isEmpty then scanLatest rest acc
    else
      match listMax (keys e.data) with
      | none => scanLatest rest acc
      | some s =>
        match parseDate s with
        | none => none
        | some d =>
          match acc with
          | none => scanLatest rest (some d)
          | some l => scanLatest rest (some (if l < d then d else l))

/-- The window-selection step of `process_market` (lines 412-432): the
computed `start_date`, with `now` the rata-die day number of the current
date; `none` is an uncaught strptime exception. -/
def computeStartDate {α : Type} (is_first_run : Bool) (existing_data : Dict (Entry α))
    (now : Int) : Option String :=
  if is_first_run || existing_data.isEmpty then some "2020-01-01"
  else
    match scanLatest (existing_data.map Prod.snd) none with
    | none => none
    | some (some latest) => some (formatDate (latest - 1))
    | some none => some (formatDate (now - 365 * 5))

/-- All date keys appearing in a list of entries. -/
def entryDates {α : Type} (entries : List (Entry α)) : List String :=
  (entries.map (fun e => keys e.data)).flatten

/-- All date keys appearing in any instrument of a document. -/
def allDateKeys {α : Type} (existing_data : Dict (Entry α)) : List String :=
  entryDates (existing_data.map Prod.snd)

/-- Maximum of a list of integers, `none` on the empty list. -/
def intMax : List Int → Option Int
  | [] => none
  | x :: rest => some (rest.foldl max x)

/-- The maximum observed date of a document: the largest day number among
all instruments' parsable date keys. -/
def specMaxDate {α : Type} (existing_data : Dict (Entry α)) : Option Int :=
  intMax ((allDateKeys existing_data).filterMap parseDate)

/-- Combine an optional running latest date with an optional maximum. -/
def optCombine (a b : Option Int) : Option Int :=
  match a, b with
  | none, b => b
  | some x, none => some x
  | some x, some y => some (max x y)


/-- Strictly ascending key order (lexicographic on the date strings). -/
def keysStrictAsc {α : Type} (l : Dict α) : Prop :=
  List.Pairwise (fun p q => strLtb p.1 q.1 = true) l

instance {α : Type} (l : Dict α) : Decidable (keysStrictAsc l) := by
  unfold keysStrictAsc; infer_instance

/-! Order facts for the code-point comparison. -/

theorem char_toNat_inj {a b : Char} (h : a.toNat = b.toNat) : a = b := by
  apply Char.eq_of_val_eq
  apply UInt32.eq_of_val_eq
  apply Fin.eq_of_val_eq
  exact h

theorem str_eq_of_data_eq {s t : String} (h : s.data = t.data) : s = t := by
  cases s; cases t; exact congrArg String.mk h

theorem charListLtb_irrefl : ∀ l : List Char, charListLtb l l = false
  | [] => rfl
  | a :: as => by simp [charListLtb, charListLtb_irrefl as]

theorem charListLtb_trans (l1 : List Char) : ∀ (l2 l3 : List Char),
    charListLtb l1 l2 = true → charListLtb l2 l3 = true → charListLtb l1 l3 = true := by
  induction l1 with
  | nil =>
    intro l2 l3 h1 h2
    cases l3 with
    | nil =>
      cases l2 with
      | nil => simpa [charListLtb] using h1
      | cons b bs => simpa [charListLtb] using h2
    | cons c cs => simp [charListLtb]
  | cons a as ih =>
    intro l2 l3 h1 h2
    cases l2 with
    | nil => simp [charListLtb] at h1
    | cons b bs =>
      cases l3 with
      | nil => simp [charListLtb] at h2
      | cons c cs =>
        simp only [charListLtb, Bool.or_eq_true, Bool.and_eq_true,
          decide_eq_true_eq] at h1 h2 ⊢
        rcases h1 with h1 | ⟨e1, h1⟩ <;> rcases h2 with h2 | ⟨e2, h2⟩
        · exact Or.inl (by omega)
        · exact Or.inl (by omega)
        · exact Or.inl (by omega)
        · exact Or.inr ⟨by omega, ih bs cs h1 h2⟩

theorem charListLtb_asymm (l1 : List Char) : ∀ (l2 : List Char),
    charListLtb l1 l2 = true → charListLtb l2 l1 = false := by
  induction l1 with
  | nil =>
    intro l2 h
    cases l2 with
    | nil => simpa [charListLtb] using h
    | cons b bs => simp [charListLtb]
  | cons a as ih =>
    intro l2 h
    cases l2 with
    | nil => simp [charListLtb] at h
    | cons b bs =>
      simp only [charListLtb, Bool.or_eq_true, Bool.and_eq_true, decide_eq_true_eq] at h
      simp only [charListLtb, Bool.or_eq_false_iff, Bool.and_eq_false_iff,
        decide_eq_false_iff_not]
      rcases h with h | ⟨e, h⟩
      · exact ⟨by omega, Or.inl (by omega)⟩
      · exact ⟨by omega, Or.inr (ih bs h)⟩

theorem charListLtb_eq_of_not_lt (l1 : List Char) : ∀ (l2 : List Char),
    charListLtb l1 l2 = false → charListLtb l2 l1 = false → l1 = l2 := by
  induction l1 with
  | nil =>
    intro l2 h1 _
    cases l2 with
    | nil => rfl
    | cons b bs => simp [charListLtb] at h1
  | cons a as ih =>
    intro l2 h1 h2
    cases l2 with
    | nil => simp [charListLtb] at h2
    | cons b bs =>
      simp only [charListLtb, Bool.or_eq_false_iff, Bool.and_eq_false_iff,
        decide_eq_false_iff_not] at h1 h2
      obtain ⟨hab, h1r⟩ := h1
      obtain ⟨hba, h2r⟩ := h2
      have he : a.toNat = b.toNat := by omega
      have : a = b := char_toNat_inj he
      subst this
      rcases h1r with h1r | h1r
      · exact absurd rfl h1r
      · rcases h2r with h2r | h2r
        · exact absurd rfl h2r
        · rw [ih bs h1r h2r]

theorem strLtb_irrefl (s : String) : strLtb s s = false := charListLtb_irrefl s.data

theorem strLtb_trans {s t u : String} (h1 : strLtb s t = true) (h2 : strLtb t u = true) :
    strLtb s u = true := charListLtb_trans s.data t.data u.data h1 h2

theorem strLtb_asymm {s t : String} (h : strLtb s t = true) : strLtb t s = false :=
  charListLtb_asymm s.data t.data h

theorem str_eq_of_not_ltb {s t : String} (h1 : strLtb s t = false)
    (h2 : strLtb t s = false) : s = t :=
  str_eq_of_data_eq (charListLtb_eq_of_not_lt s.data t.data h1 h2)

theorem strLeb_total (s t : String) : strLeb s t = true ∨ strLeb t s = true := by
  unfold strLeb
  cases h : strLtb t s with
  | false => simp
  | true => simp [strLtb_asymm h]

theorem strLeb_trans {s t u : String} (h1 : strLeb s t = true) (h2 : strLeb t u = true) :
    strLeb s u = true := by
  unfold strLeb at *
  simp only [Bool.not_eq_true', Bool.not_eq_false] at *
  cases hts : strLtb u s with
  | false => rfl
  | true =>
    exfalso
    cases htu : strLtb t u with
    | true =>
      have := strLtb_trans htu hts
      rw [this] at h1
      exact Bool.noConfusion h1
    | false =>
      have he : t = u := str_eq_of_not_ltb htu h2
      subst he
      rw [hts] at h1
      exact Bool.noConfusion h1

/-! Dict lemmas. -/

theorem keys_cons {α : Type} (p : String × α) (l : Dict α) :
    keys (p :: l) = p.1 :: keys l := rfl

theorem keys_append {α : Type} (l1 l2 : Dict α) :
    keys (l1 ++ l2) = keys l1 ++ keys l2 := by
  simp [keys]

theorem mem_keys_of_mem {α : Type} {l : Dict α} {k : String} {v : α}
    (h : (k, v) ∈ l) : k ∈ keys l := by
  simp only [keys, List.mem_map]
  exact ⟨(k, v), h, rfl⟩

theorem dictGet_cons {α : Type} (p : String × α) (l : Dict α) (k : String) :
    dictGet (p :: l) k = if p.1 = k then some p.2 else dictGet l k := by
  by_cases h : p.1 = k
  · simp [dictGet, List.find?_cons_of_pos, h]
  · simp [dictGet, List.find?_cons_of_neg, h]

theorem dictGet_eq_none_iff {α : Type} {l : Dict α} {k : String} :
    dictGet l k = none ↔ k ∉ keys l := by
  induction l with
  | nil => simp [dictGet, keys]
  | cons p rest ih =>
    rw [dictGet_cons, keys_cons]
    by_cases h : p.1 = k
    · simp [h]
    · simp [h, ih, Ne.symm h]

theorem mem_of_dictGet_eq_some {α : Type} {l : Dict α} {k : String} {v : α}
    (h : dictGet l k = some v) : (k, v) ∈ l := by
  induction l with
  | nil => simp [dictGet] at h
  | cons p rest ih =>
    rw [dictGet_cons] at h
    by_cases hp : p.1 = k
    · rw [if_pos hp] at h
      have hv : p.2 = v := by injection h
      have hpv : p = (k, v) := by rw [← hp, ← hv]
      exact List.mem_cons.mpr (Or.inl hpv.symm)
    · rw [if_neg hp] at h
      exact List.mem_cons_of_mem _ (ih h)

theorem dictGet_eq_some_of_mem {α : Type} {l : Dict α} (hl : nodupKeys l)
    {k : String} {v : α} (hm : (k, v) ∈ l) : dictGet l k = some v := by
  induction l with
  | nil => cases hm
  | cons p rest ih =>
    rw [dictGet_cons]
    have hnd := hl
    rw [nodupKeys, keys_cons, List.nodup_cons] at hnd
    rcases List.mem_cons.mp hm with he | hm2
    · rw [← he]
      simp
    · have hk : p.1 ≠ k := by
        intro he
        exact hnd.1 (he ▸ mem_keys_of_mem hm2)
      rw [if_neg hk]
      exact ih hnd.2 hm2

theorem nodupKeys_of_perm {α : Type} {l l2 : Dict α} (hp : l.Perm l2)
    (hl : nodupKeys l) : nodupKeys l2 :=
  (hp.map Prod.fst).nodup hl

theorem dictGet_congr_perm {α : Type} {l l2 : Dict α} (hl : nodupKeys l)
    (hp : l.Perm l2) (k : String) : dictGet l2 k = dictGet l k := by
  cases hg : dictGet l k with
  | none =>
    rw [dictGet_eq_none_iff] at hg ⊢
    intro hm
    exact hg (((hp.map Prod.fst).mem_iff).mpr hm)
  | some v =>
    exact dictGet_eq_some_of_mem (nodupKeys_of_perm hp hl)
      (hp.mem_iff.mp (mem_of_dictGet_eq_some hg))

theorem any_key_iff {α : Type} (l : Dict α) (k : String) :
    l.any (fun p => decide (p.1 = k)) = true ↔ k ∈ keys l := by
  simp [List.any_eq_true, keys, List.mem_map]

theorem keys_map_replace {α : Type} (l : Dict α) (k : String) (v : α) :
    keys (l.map (fun p => if p.1 = k then (k, v) else p)) = keys l := by
  induction l with
  | nil => rfl
  | cons p rest ih =>
    simp only [List.map_cons, keys_cons, ih]
    by_cases h : p.1 = k
    · simp [h]
    · simp [h]

theorem dictGet_map_replace {α : Type} (l : Dict α) (k : String) (v : α) (k2 : String) :
    dictGet (l.map (fun p => if p.1 = k then (k, v) else p)) k2 =
      if k2 = k then (if k ∈ keys l then some v else none) else dictGet l k2 := by
  induction l with
  | nil => simp [dictGet, keys]
  | cons p rest ih =>
    rw [List.map_cons]
    by_cases hp : p.1 = k <;> by_cases h2 : k2 = k
    · subst h2
      have hk2 : p.1 = k2 := hp
      simp [dictGet_cons, keys_cons, hk2]
    · have hne : ¬ k = k2 := fun he => h2 he.symm
      simp [dictGet_cons, hp, h2, hne, ih]
    · subst h2
      have hne : ¬ k2 = p.1 := fun he => hp he.symm
      simp [dictGet_cons, keys_cons, hp, hne, ih]
    · simp [dictGet_cons, hp, h2, ih]

theorem dictGet_append {α : Type} (l1 l2 : Dict α) (k : String) :
    dictGet (l1 ++ l2) k =
      match dictGet l1 k with
      | some v => some v
      | none => dictGet l2 k := by
  induction l1 with
  | nil => simp [dictGet]
  | cons p rest ih =>
    rw [List.cons_append, dictGet_cons, dictGet_cons]
    by_cases h : p.1 = k
    · simp [h]
    · simp [h, ih]

theorem dictGet_dictInsert {α : Type} (l : Dict α) (k : String) (v : α) (k2 : String) :
    dictGet (dictInsert l k v) k2 = if k2 = k then some v else dictGet l k2 := by
  unfold dictInsert
  by_cases hmem : k ∈ keys l
  · rw [if_pos ((any_key_iff l k).mpr hmem), dictGet_map_replace, if_pos hmem]
  · rw [if_neg (fun h => hmem ((any_key_iff l k).mp h)), dictGet_append]
    by_cases h2 : k2 = k
    · subst h2
      rw [dictGet_eq_none_iff.mpr hmem]
      simp [dictGet_cons]
    · cases hg : dictGet l k2 with
      | none => simp [h2, dictGet_cons, Ne.symm h2, dictGet]
      | some w => simp [h2]

theorem keys_dictInsert {α : Type} (l : Dict α) (k : String) (v : α) :
    keys (dictInsert l k v) = if k ∈ keys l then keys l else keys l ++ [k] := by
  unfold dictInsert
  by_cases hmem : k ∈ keys l
  · rw [if_pos ((any_key_iff l k).mpr hmem), if_pos hmem, keys_map_replace]
  · rw [if_neg (fun h => hmem ((any_key_iff l k).mp h)), if_neg hmem, keys_append]
    rfl

theorem nodupKeys_dictInsert {α : Type} {l : Dict α} (hl : nodupKeys l)
    (k : String) (v : α) : nodupKeys (dictInsert l k v) := by
  unfold nodupKeys
  rw [keys_dictInsert]
  by_cases hmem : k ∈ keys l
  · rw [if_pos hmem]
    exact hl
  · rw [if_neg hmem]
    simp only [List.nodup_append, List.nodup_cons, List.not_mem_nil, not_false_iff,
      List.nodup_nil, and_true, List.disjoint_singleton]
    exact ⟨hl, by simpa using hmem⟩

/-! dictUpdate lemmas. -/

theorem dictUpdate_cons {α : Type} (l : Dict α) (p : String × α) (rest : Dict α) :
    dictUpdate l (p :: rest) = dictUpdate (dictInsert l p.1 p.2) rest := rfl

theorem mem_keys_dictInsert {α : Type} (l : Dict α) (kk : String) (v : α) (k : String) :
    k ∈ keys (dictInsert l kk v) ↔ k ∈ keys l ∨ k = kk := by
  rw [keys_dictInsert]
  by_cases hm : kk ∈ keys l
  · rw [if_pos hm]
    constructor
    · exact Or.inl
    · rintro (h | rfl)
      · exact h
      · exact hm
  · rw [if_neg hm]
    simp

theorem mem_keys_dictUpdate {α : Type} (new : Dict α) : ∀ (l : Dict α) (k : String),
    k ∈ keys (dictUpdate l new) ↔ k ∈ keys l ∨ k ∈ keys new := by
  induction new with
  | nil =>
    intro l k
    simp [dictUpdate, keys]
  | cons p rest ih =>
    intro l k
    rw [dictUpdate_cons, ih, mem_keys_dictInsert, keys_cons, List.mem_cons]
    tauto

theorem nodupKeys_dictUpdate {α : Type} (new : Dict α) : ∀ {l : Dict α}, nodupKeys l →
    nodupKeys (dictUpdate l new) := by
  induction new with
  | nil => exact fun h => h
  | cons p rest ih =>
    intro l h
    rw [dictUpdate_cons]
    exact ih (nodupKeys_dictInsert h p.1 p.2)

theorem dictGet_dictUpdate {α : Type} (new : Dict α) : ∀ (l : Dict α) (k : String),
    nodupKeys new →
    dictGet (dictUpdate l new) k = if k ∈ keys new then dictGet new k else dictGet l k := by
  induction new with
  | nil =>
    intro l k _
    simp [dictUpdate, keys, dictGet]
  | cons p rest ih =>
    intro l k hnew
    rw [nodupKeys, keys_cons, List.nodup_cons] at hnew
    rw [dictUpdate_cons, ih _ k hnew.2, dictGet_cons, keys_cons]
    by_cases h1 : k ∈ keys rest
    · rw [if_pos h1, if_pos (List.mem_cons.mpr (Or.inr h1)),
        if_neg (show ¬ p.1 = k from fun he => hnew.1 (he ▸ h1))]
    · rw [if_neg h1, dictGet_dictInsert]
      by_cases h2 : k = p.1
      · rw [if_pos h2, if_pos (List.mem_cons.mpr (Or.inl h2)), if_pos h2.symm]
      · rw [if_neg h2,
          if_neg (show k ∉ p.1 :: keys rest from
            fun hm => (List.mem_cons.mp hm).elim h2 h1)]

/-! Sorting lemmas. -/

theorem insertSorted_perm {α : Type} (p : String × α) : ∀ (l : Dict α),
    (insertSorted p l).Perm (p :: l) := by
  intro l
  induction l with
  | nil => exact List.Perm.refl _
  | cons q rest ih =>
    unfold insertSorted
    by_cases h : strLeb p.1 q.1 = true
    · rw [if_pos h]
    · rw [if_neg h]
      exact (ih.cons q).trans (List.Perm.swap p q rest)

theorem sortByKey_perm {α : Type} (l : Dict α) : (sortByKey l).Perm l := by
  induction l with
  | nil => exact List.Perm.refl _
  | cons p rest ih => exact (insertSorted_perm p (sortByKey rest)).trans (ih.cons p)

theorem pairwise_insertSorted {α : Type} (p : String × α) {l : Dict α}
    (h : List.Pairwise (fun a b => strLeb a.1 b.1 = true) l) :
    List.Pairwise (fun a b => strLeb a.1 b.1 = true) (insertSorted p l) := by
  induction l with
  | nil => simp [insertSorted]
  | cons q rest ih =>
    rw [List.pairwise_cons] at h
    unfold insertSorted
    by_cases hc : strLeb p.1 q.1 = true
    · rw [if_pos hc]
      rw [List.pairwise_cons]
      refine ⟨?_, List.pairwise_cons.mpr h⟩
      intro x hx
      rcases List.mem_cons.mp hx with rfl | hx2
      · exact hc
      · exact strLeb_trans hc (h.1 x hx2)
    · rw [if_neg hc]
      rw [List.pairwise_cons]
      refine ⟨?_, ih h.2⟩
      intro x hx
      have hx2 := (insertSorted_perm p rest).mem_iff.mp hx
      rcases List.mem_cons.mp hx2 with rfl | hx3
      · rcases strLeb_total x.1 q.1 with ht | ht
        · exact absurd ht hc
        · exact ht
      · exact h.1 x hx3

theorem pairwise_sortByKey {α : Type} (l : Dict α) :
    List.Pairwise (fun a b => strLeb a.1 b.1 = true) (sortByKey l) := by
  induction l with
  | nil => simp [sortByKey]
  | cons p rest ih => exact pairwise_insertSorted p ih

theorem strLtb_of_leb_ne {s t : String} (h1 : strLeb s t = true) (h2 : s ≠ t) :
    strLtb s t = true := by
  unfold strLeb at h1
  rw [Bool.not_eq_true'] at h1
  cases hst : strLtb s t with
  | true => rfl
  | false => exact absurd (str_eq_of_not_ltb hst h1) h2

theorem keysStrictAsc_of_le_nodup {α : Type} {l : Dict α}
    (hle : List.Pairwise (fun a b => strLeb a.1 b.1 = true) l)
    (hnd : nodupKeys l) : keysStrictAsc l := by
  unfold keysStrictAsc
  unfold nodupKeys keys at hnd
  rw [List.Nodup, List.pairwise_map] at hnd
  exact (hle.and hnd).imp (fun h => strLtb_of_leb_ne h.1 h.2)

theorem nodupKeys_of_keysStrictAsc {α : Type} {l : Dict α}
    (h : keysStrictAsc l) : nodupKeys l := by
  unfold keysStrictAsc at h
  unfold nodupKeys keys
  rw [List.Nodup, List.pairwise_map]
  refine h.imp (fun hab => ?_)
  intro he
  rw [he, strLtb_irrefl] at hab
  exact Bool.noConfusion hab

/-! merge_data lemmas. -/

theorem merge_data_of_ne_nil {α : Type} {P : Dict α} (h : P ≠ []) (F : Dict α)
    (ticker : String) : merge_data P F ticker = sortByKey (dictUpdate P F) := by
  unfold merge_data
  rw [if_neg (by simp [List.isEmpty_iff, h])]

theorem nodupKeys_merge_data {α : Type} {P F : Dict α} (hP : nodupKeys P)
    (hF : nodupKeys F) (ticker : String) : nodupKeys (merge_data P F ticker) := by
  by_cases hPe : P = []
  · subst hPe
    simpa [merge_data] using hF
  · rw [merge_data_of_ne_nil hPe]
    exact nodupKeys_of_perm (sortByKey_perm _).symm (nodupKeys_dictUpdate F hP)

theorem mem_keys_merge_data {α : Type} {P F : Dict α} (ticker k : String) :
    k ∈ keys (merge_data P F ticker) ↔ k ∈ keys P ∨ k ∈ keys F := by
  by_cases hPe : P = []
  · subst hPe
    simp [merge_data, keys]
  · rw [merge_data_of_ne_nil hPe]
    have := ((sortByKey_perm (dictUpdate P F)).map Prod.fst).mem_iff (a := k)
    rw [keys]
    rw [this]
    exact mem_keys_dictUpdate F P k

theorem dictGet_merge_data {α : Type} {P F : Dict α} (hP : nodupKeys P)
    (hF : nodupKeys F) (ticker k : String) :
    dictGet (merge_data P F ticker) k =
      if k ∈ keys F then dictGet F k else dictGet P k := by
  by_cases hPe : P = []
  · subst hPe
    by_cases hkF : k ∈ keys F
    · simp [merge_data, hkF]
    · rw [merge_data]
      simp only [List.isEmpty_nil, if_true]
      rw [if_neg hkF, dictGet_eq_none_iff.mpr hkF]
      rfl
  · rw [merge_data_of_ne_nil hPe,
      dictGet_congr_perm (nodupKeys_dictUpdate F hP) (sortByKey_perm _).symm,
      dictGet_dictUpdate F P k hF]

theorem keysStrictAsc_merge_data {α : Type} {P F : Dict α} (hne : P ≠ [])
    (hP : nodupKeys P) (hF : nodupKeys F) (ticker : String) :
    keysStrictAsc (merge_data P F ticker) := by
  rw [merge_data_of_ne_nil hne]
  exact keysStrictAsc_of_le_nodup (pairwise_sortByKey _)
    (nodupKeys_of_perm (sortByKey_perm _).symm (nodupKeys_dictUpdate F hP))

/-! Claim theorems about merge_data. -/

/-- Claim C2: for every prior series P and fresh series F (each satisfying the
dict invariant of distinct dates), the merged series has key set
keys(P) ∪ keys(F), and for every date d its value is F[d] if d is in F and
P[d] otherwise; in particular a date present in both carries the fresh value,
and dates present in only one side all appear. -/
theorem claim_C2 {α : Type} (P F : Dict α) (ticker : String)
    (hP : nodupKeys P) (hF : nodupKeys F) :
    (∀ k, k ∈ keys (merge_data P F ticker) ↔ k ∈ keys P ∨ k ∈ keys F) ∧
    (∀ k, k ∈ keys F → dictGet (merge_data P F ticker) k = dictGet F k) ∧
    (∀ k, k ∉ keys F → dictGet (merge_data P F ticker) k = dictGet P k) := by
  refine ⟨fun k => mem_keys_merge_data ticker k, fun k hk => ?_, fun k hk => ?_⟩
  · rw [dictGet_merge_data hP hF ticker k, if_pos hk]
  · rw [dictGet_merge_data hP hF ticker k, if_neg hk]

/-- Witness for C2 at the spec's merge-overwrite example: prior
{2023-01-01: 100, 2023-01-03: 103}, fresh {2023-01-01: 101, 2023-01-02: 102};
the merged series carries 101 on the common date and all three dates. -/
theorem claim_C2_witness :
    (nodupKeys [("2023-01-01", (100 : Int)), ("2023-01-03", 103)] ∧
     nodupKeys [("2023-01-01", (101 : Int)), ("2023-01-02", 102)]) ∧
    ((∀ k, k ∈ keys (merge_data [("2023-01-01", (100 : Int)), ("2023-01-03", 103)]
        [("2023-01-01", 101), ("2023-01-02", 102)] "MSFT") ↔
        k ∈ keys [("2023-01-01", (100 : Int)), ("2023-01-03", 103)] ∨
        k ∈ keys [("2023-01-01", (101 : Int)), ("2023-01-02", 102)]) ∧
     (∀ k, k ∈ keys [("2023-01-01", (101 : Int)), ("2023-01-02", 102)] →
        dictGet (merge_data [("2023-01-01", (100 : Int)), ("2023-01-03", 103)]
          [("2023-01-01", 101), ("2023-01-02", 102)] "MSFT") k =
        dictGet [("2023-01-01", (101 : Int)), ("2023-01-02", 102)] k) ∧
     (∀ k, k ∉ keys [("2023-01-01", (101 : Int)), ("2023-01-02", 102)] →
        dictGet (merge_data [("2023-01-01", (100 : Int)), ("2023-01-03", 103)]
          [("2023-01-01", 101), ("2023-01-02", 102)] "MSFT") k =
        dictGet [("2023-01-01", (100 : Int)), ("2023-01-03", 103)] k)) ∧
    merge_data [("2023-01-01", (100 : Int)), ("2023-01-03", 103)]
        [("2023-01-01", 101), ("2023-01-02", 102)] "MSFT" =
      [("2023-01-01", 101), ("2023-01-02", 102), ("2023-01-03", 103)] :=
  ⟨⟨by decide, by decide⟩,
   claim_C2 [("2023-01-01", (100 : Int)), ("2023-01-03", 103)]
     [("2023-01-01", 101), ("2023-01-02", 102)] "MSFT" (by decide) (by decide),
   by decide⟩

/-- Claim C10: whenever the prior series passed to merge_data is empty,
merge_data returns the fresh series exactly as given — no keys added or
removed, no values changed, and no sorting applied. -/
theorem claim_C10 {α : Type} (F : Dict α) (ticker : String) :
    merge_data [] F ticker = F := rfl

/-- Counterexample to claim C3 as stated: the claim includes the case of an
empty prior series, but there merge_data returns the fresh series without
sorting, so an out-of-order fresh series yields a merged series whose date
keys are not in ascending order. -/
theorem claim_C3_counterexample :
    merge_data ([] : Dict Int) [("2023-01-02", 1), ("2023-01-01", 2)] "X" =
      [("2023-01-02", 1), ("2023-01-01", 2)] ∧
    ¬ keysStrictAsc (merge_data ([] : Dict Int)
      [("2023-01-02", 1), ("2023-01-01", 2)] "X") :=
  ⟨rfl, by decide⟩

/-- Claim C3 (amended): for every NON-EMPTY prior series and every fresh
series (both with distinct dates), the merged series has its date keys in
strictly ascending lexical order with no duplicate dates; when the prior
series is empty the fresh series is returned unchanged in its original
order. -/
theorem claim_C3_amended {α : Type} (P F : Dict α) (ticker : String)
    (hne : P ≠ []) (hP : nodupKeys P) (hF : nodupKeys F) :
    keysStrictAsc (merge_data P F ticker) ∧ nodupKeys (merge_data P F ticker) :=
  ⟨keysStrictAsc_merge_data hne hP hF ticker, nodupKeys_merge_data hP hF ticker⟩

/-- Witness for the amended C3: a non-empty prior and an unsorted fresh series
merge to a strictly ascending series. -/
theorem claim_C3_amended_witness :
    (([("2023-01-03", (3 : Int))] : Dict Int) ≠ [] ∧
     nodupKeys [("2023-01-03", (3 : Int))] ∧
     nodupKeys [("2023-01-02", (2 : Int)), ("2023-01-01", 1)]) ∧
    (keysStrictAsc (merge_data [("2023-01-03", (3 : Int))]
        [("2023-01-02", 2), ("2023-01-01", 1)] "X") ∧
     nodupKeys (merge_data [("2023-01-03", (3 : Int))]
        [("2023-01-02", 2), ("2023-01-01", 1)] "X")) ∧
    merge_data [("2023-01-03", (3 : Int))] [("2023-01-02", 2), ("2023-01-01", 1)] "X" =
      [("2023-01-01", 1), ("2023-01-02", 2), ("2023-01-03", 3)] :=
  ⟨⟨by decide, by decide, by decide⟩,
   claim_C3_amended [("2023-01-03", (3 : Int))]
     [("2023-01-02", 2), ("2023-01-01", 1)] "X" (by decide) (by decide) (by decide),
   by decide⟩

/-- Claim C7: merging a fresh fetch that exactly equals the prior series S
yields a series identical to S as a mapping: the same value at every date,
the same date set, and no duplicate dates. -/
theorem claim_C7 {α : Type} (S : Dict α) (ticker : String) (hS : nodupKeys S) :
    (∀ k, dictGet (merge_data S S ticker) k = dictGet S k) ∧
    (∀ k, k ∈ keys (merge_data S S ticker) ↔ k ∈ keys S) ∧
    nodupKeys (merge_data S S ticker) := by
  refine ⟨fun k => ?_, fun k => ?_, nodupKeys_merge_data hS hS ticker⟩
  · rw [dictGet_merge_data hS hS ticker k]
    by_cases h : k ∈ keys S
    · rw [if_pos h]
    · rw [if_neg h]
  · rw [mem_keys_merge_data]
    tauto

/-- Witness for C7: a two-date series merged with itself is unchanged. -/
theorem claim_C7_witness :
    nodupKeys [("2023-01-01", (1 : Int)), ("2023-01-02", 2)] ∧
    ((∀ k, dictGet (merge_data [("2023-01-01", (1 : Int)), ("2023-01-02", 2)]
        [("2023-01-01", 1), ("2023-01-02", 2)] "X") k =
        dictGet [("2023-01-01", (1 : Int)), ("2023-01-02", 2)] k) ∧
     (∀ k, k ∈ keys (merge_data [("2023-01-01", (1 : Int)), ("2023-01-02", 2)]
        [("2023-01-01", 1), ("2023-01-02", 2)] "X") ↔
        k ∈ keys [("2023-01-01", (1 : Int)), ("2023-01-02", 2)]) ∧
     nodupKeys (merge_data [("2023-01-01", (1 : Int)), ("2023-01-02", 2)]
        [("2023-01-01", 1), ("2023-01-02", 2)] "X")) ∧
    merge_data [("2023-01-01", (1 : Int)), ("2023-01-02", 2)]
        [("2023-01-01", 1), ("2023-01-02", 2)] "X" =
      [("2023-01-01", 1), ("2023-01-02", 2)] :=
  ⟨by decide,
   claim_C7 [("2023-01-01", (1 : Int)), ("2023-01-02", 2)] "X" (by decide),
   by decide⟩

/-! Lemmas about convert_to_ric_format and the persistence step. -/

theorem keys_mergedOf {α : Type} (existing_data : Dict (Entry α))
    (new_data : Dict (Dict α)) : keys (mergedOf existing_data new_data) = keys new_data := by
  unfold mergedOf keys
  rw [List.map_map]
  rfl

theorem convert_foldl_get_of_ne {α : Type} (md : Dict (Dict α)) :
    ∀ (acc : Dict (Entry α)) (r : String), (∀ p ∈ md, ricOf p.1 ≠ r) →
    dictGet (md.foldl
      (fun acc p => dictInsert acc (ricOf p.1) ⟨displayName p.1, p.2⟩) acc) r =
    dictGet acc r := by
  induction md with
  | nil => intro acc r _; rfl
  | cons p rest ih =>
    intro acc r h
    rw [List.foldl_cons, ih _ r (fun q hq => h q (List.mem_cons_of_mem p hq)),
      dictGet_dictInsert,
      if_neg (fun he => h p (List.mem_cons_self p rest) he.symm)]

theorem convert_foldl_get_mem {α : Type} (md : Dict (Dict α)) :
    ∀ (acc : Dict (Entry α)) (t : String) (f : Dict α), (t, f) ∈ md →
    nodupKeys md →
    (∀ p1 ∈ md, ∀ p2 ∈ md, ricOf p1.1 = ricOf p2.1 → p1.1 = p2.1) →
    dictGet (md.foldl
      (fun acc p => dictInsert acc (ricOf p.1) ⟨displayName p.1, p.2⟩) acc) (ricOf t) =
    some ⟨displayName t, f⟩ := by
  induction md with
  | nil => intro acc t f hm; cases hm
  | cons p rest ih =>
    intro acc t f hm hnd hinj
    have hnd2 := hnd
    rw [nodupKeys, keys_cons, List.nodup_cons] at hnd2
    rw [List.foldl_cons]
    rcases List.mem_cons.mp hm with he | hm2
    · have ht : p.1 = t := congrArg Prod.fst he.symm
      have hf : p.2 = f := congrArg Prod.snd he.symm
      rw [convert_foldl_get_of_ne rest _ (ricOf t) ?hne, dictGet_dictInsert,
        if_pos (by rw [ht]), ht, hf]
      case hne =>
        intro q hq hqe
        have : q.1 = p.1 :=
          hinj q (List.mem_cons_of_mem p hq) p (List.mem_cons_self p rest)
            (by rw [ht]; exact hqe)
        exact hnd2.1 (this ▸ mem_keys_of_mem hq)
    · exact ih _ t f hm2 hnd2.2
        (fun q1 hq1 q2 hq2 => hinj q1 (List.mem_cons_of_mem p hq1)
          q2 (List.mem_cons_of_mem p hq2))

theorem convert_foldl_keys_sub {α : Type} (md : Dict (Dict α)) :
    ∀ (acc : Dict (Entry α)) (r : String),
    r ∈ keys (md.foldl
      (fun acc p => dictInsert acc (ricOf p.1) ⟨displayName p.1, p.2⟩) acc) →
    r ∈ keys acc ∨ ∃ p ∈ md, r = ricOf p.1 := by
  induction md with
  | nil =>
    intro acc r h
    exact Or.inl h
  | cons p rest ih =>
    intro acc r h
    rw [List.foldl_cons] at h
    rcases ih _ r h with h2 | h2
    · rcases (mem_keys_dictInsert _ _ _ _).mp h2 with h3 | h3
      · exact Or.inl h3
      · exact Or.inr ⟨p, List.mem_cons_self p rest, h3⟩
    · obtain ⟨q, hq, hqe⟩ := h2
      exact Or.inr ⟨q, List.mem_cons_of_mem p hq, hqe⟩

/-! Claim theorems about the persistence step. -/

/-- Claim C8: if the fresh fetch returns an empty mapping, the write is
skipped (`none` — the prior persisted file is left untouched), and in general
a write occurs exactly when the merged set of instruments is non-empty. -/
theorem claim_C8 {α : Type} (existing_data : Dict (Entry α)) :
    processWrite existing_data ([] : Dict (Dict α)) = none ∧
    (∀ new_data : Dict (Dict α),
      (processWrite existing_data new_data).isSome = true ↔
        mergedOf existing_data new_data ≠ []) := by
  constructor
  · rfl
  · intro nd
    unfold processWrite
    by_cases h : (mergedOf existing_data nd).isEmpty
    · rw [if_pos h]
      simp [List.isEmpty_iff.mp h]
    · rw [if_neg h]
      constructor
      · intro _ he
        rw [he] at h
        exact h rfl
      · intro _
        rfl

/-- Counterexample to claim C1 as stated: existing document carrying only
".SPX", fresh fetch carrying only the ticker MSFT.  A document is written (the
merged set is non-empty), yet the canonical code ".SPX" of the prior document
is absent from the written document: the persisted instrument set shrank. -/
theorem claim_C1_counterexample :
    processWrite [(".SPX", ⟨"S&P 500", [("2023-01-01", (1 : Int))]⟩)]
        [("MSFT", [("2023-01-02", 2)])] =
      some [("MSFT.O", ⟨"Microsoft", [("2023-01-02", 2)]⟩)] ∧
    ".SPX" ∈ keys [(".SPX", (⟨"S&P 500", [("2023-01-01", (1 : Int))]⟩ : Entry Int))] ∧
    ".SPX" ∉ keys [("MSFT.O", (⟨"Microsoft", [("2023-01-02", (2 : Int))]⟩ : Entry Int))] :=
  ⟨by decide, by decide, by decide⟩

/-- Claim C1 (amended): when a write occurs, every instrument of the CURRENT
fresh fetch appears in the written document under its canonical code, with its
prior series (looked up in the prior document under that code) retained and
overlaid by the fresh observations; but only fetched instruments are written —
an instrument of the prior document absent from the fresh fetch is dropped, so
the persisted instrument set can shrink (see the counterexample). -/
theorem claim_C1_amended {α : Type} (existing_data : Dict (Entry α))
    (new_data : Dict (Dict α)) (t : String) (f : Dict α)
    (hmem : (t, f) ∈ new_data) (hnd : nodupKeys new_data)
    (hinj : ∀ p1 ∈ new_data, ∀ p2 ∈ new_data, ricOf p1.1 = ricOf p2.1 → p1.1 = p2.1) :
    processWrite existing_data new_data =
      some (convert_to_ric_format (mergedOf existing_data new_data)) ∧
    dictGet (convert_to_ric_format (mergedOf existing_data new_data)) (ricOf t) =
      some ⟨displayName t, merge_data (priorData existing_data t) f t⟩ ∧
    (∀ r, r ∈ keys (convert_to_ric_format (mergedOf existing_data new_data)) →
      ∃ p ∈ new_data, r = ricOf p.1) := by
  have hmdnd : nodupKeys (mergedOf existing_data new_data) := by
    unfold nodupKeys
    rw [keys_mergedOf]
    exact hnd
  refine ⟨?_, ?_, ?_⟩
  · unfold processWrite
    rw [if_neg ?hne]
    case hne =>
      intro hemp
      rw [List.isEmpty_iff] at hemp
      have : (t, merge_data (priorData existing_data t) f t) ∈
          mergedOf existing_data new_data := by
        unfold mergedOf
        exact List.mem_map.mpr ⟨(t, f), hmem, rfl⟩
      rw [hemp] at this
      cases this
  · apply convert_foldl_get_mem
    · unfold mergedOf
      exact List.mem_map.mpr ⟨(t, f), hmem, rfl⟩
    · exact hmdnd
    · intro p1 hp1 p2 hp2
      unfold mergedOf at hp1 hp2
      obtain ⟨q1, hq1, hq1e⟩ := List.mem_map.mp hp1
      obtain ⟨q2, hq2, hq2e⟩ := List.mem_map.mp hp2
      rw [← hq1e, ← hq2e]
      exact hinj q1 hq1 q2 hq2
  · intro r hr
    rcases convert_foldl_keys_sub _ _ r hr with h | h
    · cases h
    · obtain ⟨p, hp, hpe⟩ := h
      unfold mergedOf at hp
      obtain ⟨q, hq, hqe⟩ := List.mem_map.mp hp
      refine ⟨q, hq, ?_⟩
      rw [hpe, ← hqe]

/-- Witness for the amended C1 at the spec's end-to-end scenario: prior
document {"MSFT.O": {name Microsoft, 2023-01-01: 100}}, fresh fetch
{"MSFT": {2023-01-01: 101, 2023-01-02: 102}}; the written document carries
MSFT.O with the merged, overwritten series. -/
theorem claim_C1_amended_witness :
    (("MSFT", [("2023-01-01", (101 : Int)), ("2023-01-02", 102)]) ∈
       ([("MSFT", [("2023-01-01", (101 : Int)), ("2023-01-02", 102)])] :
         Dict (Dict Int)) ∧
     nodupKeys ([("MSFT", [("2023-01-01", (101 : Int)), ("2023-01-02", 102)])] :
       Dict (Dict Int)) ∧
     (∀ p1 ∈ ([("MSFT", [("2023-01-01", (101 : Int)), ("2023-01-02", 102)])] :
         Dict (Dict Int)),
      ∀ p2 ∈ ([("MSFT", [("2023-01-01", (101 : Int)), ("2023-01-02", 102)])] :
         Dict (Dict Int)), ricOf p1.1 = ricOf p2.1 → p1.1 = p2.1)) ∧
    (processWrite [("MSFT.O", ⟨"Microsoft", [("2023-01-01", (100 : Int))]⟩)]
        [("MSFT", [("2023-01-01", 101), ("2023-01-02", 102)])] =
      some (convert_to_ric_format (mergedOf
        [("MSFT.O", ⟨"Microsoft", [("2023-01-01", (100 : Int))]⟩)]
        [("MSFT", [("2023-01-01", 101), ("2023-01-02", 102)])])) ∧
     dictGet (convert_to_ric_format (mergedOf
        [("MSFT.O", ⟨"Microsoft", [("2023-01-01", (100 : Int))]⟩)]
        [("MSFT", [("2023-01-01", 101), ("2023-01-02", 102)])])) (ricOf "MSFT") =
      some ⟨displayName "MSFT", merge_data
        (priorData [("MSFT.O", ⟨"Microsoft", [("2023-01-01", (100 : Int))]⟩)] "MSFT")
        [("2023-01-01", 101), ("2023-01-02", 102)] "MSFT"⟩ ∧
     (∀ r, r ∈ keys (convert_to_ric_format (mergedOf
        [("MSFT.O", ⟨"Microsoft", [("2023-01-01", (100 : Int))]⟩)]
        [("MSFT", [("2023-01-01", 101), ("2023-01-02", 102)])])) →
      ∃ p ∈ ([("MSFT", [("2023-01-01", (101 : Int)), ("2023-01-02", 102)])] :
         Dict (Dict Int)), r = ricOf p.1)) ∧
    processWrite [("MSFT.O", ⟨"Microsoft", [("2023-01-01", (100 : Int))]⟩)]
        [("MSFT", [("2023-01-01", 101), ("2023-01-02", 102)])] =
      some [("MSFT.O", ⟨"Microsoft", [("2023-01-01", 101), ("2023-01-02", 102)]⟩)] :=
  ⟨⟨by decide, by decide, by decide⟩,
   claim_C1_amended
     [("MSFT.O", ⟨"Microsoft", [("2023-01-01", (100 : Int))]⟩)]
     [("MSFT", [("2023-01-01", 101), ("2023-01-02", 102)])]
     "MSFT" [("2023-01-01", 101), ("2023-01-02", 102)]
     (by decide) (by decide) (by decide),
   by decide⟩

/-! Claim theorem for the orchestrator loop. -/

/-- Claim C9: the orchestrator attempts every configured asset class in order,
whatever each class's pipeline does: a class whose pipeline raises is recorded
with its error by the surrounding handler and the loop continues, so the full
run covers all classes and never aborts. -/
theorem claim_C9 (process : String → Except String Unit) :
    (run process).map Prod.fst = markets ∧ (run process).length = markets.length := by
  constructor
  · unfold run
    rw [List.map_map]
    have h : (Prod.fst ∘ fun m => (match process m with
        | Except.ok _ => (m, (none : Option String))
        | Except.error e => (m, some e))) = id := by
      funext m
      simp only [Function.comp_apply, id_eq]
      cases process m <;> rfl
    rw [h, List.map_id]
  · unfold run
    rw [List.length_map]

/-! Calendar arithmetic lemmas. -/

theorem yearBase_step (y : Int) :
    yearBase (y + 1) = yearBase y + (if isLeap y then 366 else 365) := by
  simp only [yearBase, isLeap]
  split_ifs with h
  · omega
  · omega

theorem doy_pos (y m d : Int) (hm : 1 ≤ m) (hm2 : m ≤ 12) (hd : 1 ≤ d) :
    1 ≤ monthOffset y m + d := by
  simp only [monthOffset]
  split_ifs <;> omega

theorem doy_le (y m d : Int) (hm : 1 ≤ m) (hm2 : m ≤ 12) (hd2 : d ≤ daysInMonth y m) :
    monthOffset y m + d ≤ (if isLeap y then 366 else 365) := by
  simp only [monthOffset, daysInMonth] at *
  split_ifs at * <;> omega

theorem doy_mono_same_year (y m d m' d' : Int)
    (hm : 1 ≤ m) (hm2 : m ≤ 12) (hd2 : d ≤ daysInMonth y m)
    (hm' : 1 ≤ m') (hd' : 1 ≤ d')
    (hlt : m < m' ∨ (m = m' ∧ d < d')) :
    monthOffset y m + d < monthOffset y m' + d' := by
  simp only [monthOffset, daysInMonth] at *
  interval_cases m <;> split_ifs at * <;> omega

theorem yearBase_mono (y y' : Int) (h : y ≤ y') : yearBase y ≤ yearBase y' := by
  refine @Int.le_induction (fun n => yearBase y ≤ yearBase n) y (le_refl _) ?_ y' h
  intro n hn ih
  rw [yearBase_step]
  split_ifs <;> omega

theorem dayNumber_mono (y m d y' m' d' : Int)
    (hm : 1 ≤ m) (hm2 : m ≤ 12) (hd : 1 ≤ d) (hd2 : d ≤ daysInMonth y m)
    (hm' : 1 ≤ m') (hm2' : m' ≤ 12) (hd' : 1 ≤ d') (hd2' : d' ≤ daysInMonth y' m')
    (hlt : y < y' ∨ (y = y' ∧ (m < m' ∨ (m = m' ∧ d < d')))) :
    dayNumber y m d < dayNumber y' m' d' := by
  rcases hlt with hy | ⟨rfl, hmd⟩
  · have h1 := doy_le y m d hm hm2 hd2
    have h2 := doy_pos y' m' d' hm' hm2' hd'
    have h3 := yearBase_step y
    have h4 := yearBase_mono (y + 1) y' (by omega)
    simp only [dayNumber]
    split_ifs at h1 h3 <;> omega
  · have := doy_mono_same_year y m d m' d' hm hm2 hd2 hm' hd' hmd
    simp only [dayNumber]
    omega

/-! parseDate is strictly monotone from the lexicographic string order to the
day-number order, on strings it accepts. -/

theorem parseDate_lt {s t : String} {a b : Int} (hs : parseDate s = some a)
    (ht : parseDate t = some b) (hlt : strLtb s t = true) : a < b := by
  unfold parseDate at hs ht
  split at hs
  rotate_left
  · exact Option.noConfusion hs
  rename_i sy1 sy2 sy3 sy4 sc1 sm1 sm2 sc2 sd1 sd2 hseq
  split at ht
  rotate_left
  · exact Option.noConfusion ht
  rename_i ty1 ty2 ty3 ty4 tc1 tm1 tm2 tc2 td1 td2 hteq
  split at hs
  rotate_left
  · exact Option.noConfusion hs
  rename_i hscond
  split at ht
  rotate_left
  · exact Option.noConfusion ht
  rename_i htcond
  rw [dateFromYmd] at hs ht
  split at hs
  rotate_left
  · exact Option.noConfusion hs
  rename_i hsrange
  split at ht
  rotate_left
  · exact Option.noConfusion ht
  rename_i htrange
  injection hs with hsa
  injection ht with hta
  rw [← hsa, ← hta]
  obtain ⟨hsc1, hsc2, hsy1, hsy2, hsy3, hsy4, hsm1, hsm2, hsd1, hsd2⟩ := hscond
  obtain ⟨htc1, htc2, hty1, hty2, hty3, hty4, htm1, htm2, htd1, htd2⟩ := htcond
  subst hsc1 hsc2 htc1 htc2
  unfold strLtb at hlt
  rw [hseq, hteq] at hlt
  simp only [charListLtb, Bool.or_eq_true, Bool.and_eq_true, decide_eq_true_eq,
    lt_self_iff_false, false_or, true_and, Bool.false_eq_true, and_false, or_false] at hlt
  simp only [isDig] at hsy1 hsy2 hsy3 hsy4 hsm1 hsm2 hsd1 hsd2
  simp only [isDig] at hty1 hty2 hty3 hty4 htm1 htm2 htd1 htd2
  refine dayNumber_mono _ _ _ _ _ _ hsrange.2.1 hsrange.2.2.1 hsrange.2.2.2.1
    hsrange.2.2.2.2 htrange.2.1 htrange.2.2.1 htrange.2.2.2.1 htrange.2.2.2.2 ?_
  simp only [dv]
  omega

/-! Maximum lemmas. -/

theorem foldl_strmax_mem (l : List String) : ∀ x : String,
    l.foldl (fun acc k => if strLtb acc k then k else acc) x = x ∨
    l.foldl (fun acc k => if strLtb acc k then k else acc) x ∈ l := by
  induction l with
  | nil => exact fun x => Or.inl rfl
  | cons j rest ih =>
    intro x
    rw [List.foldl_cons]
    by_cases hxj : strLtb x j = true
    · rw [if_pos hxj]
      rcases ih j with h | h
      · rw [h]
        exact Or.inr (List.mem_cons_self j rest)
      · exact Or.inr (List.mem_cons_of_mem j h)
    · rw [if_neg hxj]
      rcases ih x with h | h
      · exact Or.inl h
      · exact Or.inr (List.mem_cons_of_mem j h)

theorem foldl_strmax_ub (l : List String) : ∀ x : String,
    strLtb (l.foldl (fun acc k => if strLtb acc k then k else acc) x) x = false ∧
    (∀ k ∈ l, strLtb (l.foldl (fun acc k => if strLtb acc k then k else acc) x) k = false) := by
  induction l with
  | nil => exact fun x => ⟨strLtb_irrefl x, by simp⟩
  | cons j rest ih =>
    intro x
    rw [List.foldl_cons]
    by_cases hxj : strLtb x j = true
    · rw [if_pos hxj]
      obtain ⟨h1, h2⟩ := ih j
      have hrx : strLtb (rest.foldl (fun acc k => if strLtb acc k then k else acc) j) x
          = false := by
        cases hrx : strLtb (rest.foldl (fun acc k => if strLtb acc k then k else acc) j) x with
        | false => rfl
        | true =>
          have hc := strLtb_trans hrx hxj
          rw [hc] at h1
          exact Bool.noConfusion h1
      refine ⟨hrx, fun k hk => ?_⟩
      rcases List.mem_cons.mp hk with rfl | hk2
      · exact h1
      · exact h2 k hk2
    · rw [if_neg hxj]
      obtain ⟨h1, h2⟩ := ih x
      refine ⟨h1, fun k hk => ?_⟩
      rcases List.mem_cons.mp hk with rfl | hk2
      · cases hrj : strLtb (rest.foldl (fun acc k2 => if strLtb acc k2 then k2 else acc) x) k with
        | false => rfl
        | true =>
          cases hjx : strLtb k x with
          | true =>
            have hc := strLtb_trans hrj hjx
            rw [hc] at h1
            exact Bool.noConfusion h1
          | false =>
            have hxe : x = k :=
              str_eq_of_not_ltb (Bool.not_eq_true _ ▸ (Bool.of_not_eq_true hxj)) hjx
            rw [← hxe] at hrj
            rw [hrj] at h1
            exact Bool.noConfusion h1
      · exact h2 k hk2

theorem listMax_spec {l : List String} {M : String} (h : listMax l = some M) :
    M ∈ l ∧ ∀ k ∈ l, strLtb M k = false := by
  cases l with
  | nil => exact Option.noConfusion h
  | cons x rest =>
    unfold listMax at h
    injection h with h
    subst h
    constructor
    · rcases foldl_strmax_mem rest x with h2 | h2
      · rw [h2]
        exact List.mem_cons_self x rest
      · exact List.mem_cons_of_mem x h2
    · intro k hk
      obtain ⟨h1, h2⟩ := foldl_strmax_ub rest x
      rcases List.mem_cons.mp hk with rfl | hk2
      · exact h1
      · exact h2 k hk2

theorem parse_listMax {l : List String} {M : String} (hM : listMax l = some M)
    (hvalid : ∀ k ∈ l, (parseDate k).isSome = true) :
    ∃ v, parseDate M = some v ∧ ∀ k ∈ l, ∀ w, parseDate k = some w → w ≤ v := by
  obtain ⟨hMmem, hMub⟩ := listMax_spec hM
  obtain ⟨v, hv⟩ := Option.isSome_iff_exists.mp (hvalid M hMmem)
  refine ⟨v, hv, fun k hk w hw => ?_⟩
  cases hkM : strLtb k M with
  | true => exact le_of_lt (parseDate_lt hw hv hkM)
  | false =>
    have he : k = M := str_eq_of_not_ltb hkM (hMub k hk)
    rw [he, hv] at hw
    injection hw with hw
    omega

theorem foldl_intmax_mem (l : List Int) : ∀ x : Int,
    l.foldl max x = x ∨ l.foldl max x ∈ l := by
  induction l with
  | nil => exact fun x => Or.inl rfl
  | cons j rest ih =>
    intro x
    rw [List.foldl_cons]
    rcases ih (max x j) with h | h
    · rcases max_choice x j with hm | hm
      · rw [hm] at h ⊢
        exact Or.inl h
      · rw [hm] at h ⊢
        rw [h]
        exact Or.inr (List.mem_cons_self j rest)
    · exact Or.inr (List.mem_cons_of_mem j h)

theorem foldl_intmax_ub (l : List Int) : ∀ x : Int,
    x ≤ l.foldl max x ∧ ∀ k ∈ l, k ≤ l.foldl max x := by
  induction l with
  | nil => exact fun x => ⟨le_refl x, by simp⟩
  | cons j rest ih =>
    intro x
    rw [List.foldl_cons]
    obtain ⟨h1, h2⟩ := ih (max x j)
    refine ⟨le_trans (le_max_left x j) h1, fun k hk => ?_⟩
    rcases List.mem_cons.mp hk with rfl | hk2
    · exact le_trans (le_max_right x k) h1
    · exact h2 k hk2

theorem intMax_spec {l : List Int} {m : Int} (h : intMax l = some m) :
    m ∈ l ∧ ∀ x ∈ l, x ≤ m := by
  cases l with
  | nil => exact Option.noConfusion h
  | cons x rest =>
    unfold intMax at h
    injection h with h
    subst h
    constructor
    · rcases foldl_intmax_mem rest x with h2 | h2
      · rw [h2]
        exact List.mem_cons_self x rest
      · exact List.mem_cons_of_mem x h2
    · intro k hk
      obtain ⟨h1, h2⟩ := foldl_intmax_ub rest x
      rcases List.mem_cons.mp hk with rfl | hk2
      · exact h1
      · exact h2 k hk2

theorem intMax_eq_of_ub {l : List Int} {m : Int} (hm : m ∈ l) (hub : ∀ x ∈ l, x ≤ m) :
    intMax l = some m := by
  cases l with
  | nil => cases hm
  | cons x rest =>
    obtain ⟨hm2, hub2⟩ := intMax_spec (l := x :: rest) rfl
    have he : rest.foldl max x = m := le_antisymm (hub _ hm2) (hub2 m hm)
    show some (rest.foldl max x) = some m
    rw [he]

theorem intMax_eq_none {l : List Int} (h : intMax l = none) : l = [] := by
  cases l with
  | nil => rfl
  | cons x rest => exact Option.noConfusion h

theorem intMax_append (xs ys : List Int) :
    intMax (xs ++ ys) = optCombine (intMax xs) (intMax ys) := by
  cases hx : intMax xs with
  | none =>
    rw [intMax_eq_none hx, List.nil_append]
    cases intMax ys <;> rfl
  | some mx =>
    cases hy : intMax ys with
    | none =>
      rw [intMax_eq_none hy, List.append_nil, hx]
      rfl
    | some my =>
      obtain ⟨hmx, hux⟩ := intMax_spec hx
      obtain ⟨hmy, huy⟩ := intMax_spec hy
      rw [show optCombine (some mx) (some my) = some (max mx my) from rfl]
      apply intMax_eq_of_ub
      · rcases max_choice mx my with h | h <;> rw [h]
        · exact List.mem_append.mpr (Or.inl hmx)
        · exact List.mem_append.mpr (Or.inr hmy)
      · intro x hxm
        rcases List.mem_append.mp hxm with h | h
        · exact le_trans (hux x h) (le_max_left mx my)
        · exact le_trans (huy x h) (le_max_right mx my)

theorem intMax_filterMap_parse (ks : List String) (hne : ks ≠ [])
    (hvalid : ∀ k ∈ ks, (parseDate k).isSome = true) :
    ∃ M v, listMax ks = some M ∧ parseDate M = some v ∧
      intMax (ks.filterMap parseDate) = some v := by
  cases ks with
  | nil => exact absurd rfl hne
  | cons x r =>
    have hlm : listMax (x :: r) =
        some (r.foldl (fun acc k => if strLtb acc k then k else acc) x) := rfl
    obtain ⟨hMmem, _⟩ := listMax_spec hlm
    obtain ⟨v, hv, hub⟩ := parse_listMax hlm hvalid
    refine ⟨_, v, hlm, hv, intMax_eq_of_ub (List.mem_filterMap.mpr ⟨_, hMmem, hv⟩) ?_⟩
    intro w hw
    obtain ⟨k, hk, hkp⟩ := List.mem_filterMap.mp hw
    exact hub k hk w hkp

/-! scanLatest lemmas. -/

theorem scanLatest_cons_empty {α : Type} (e : Entry α) (rest : List (Entry α))
    (acc : Option Int) (hd : e.data.isEmpty = true) :
    scanLatest (e :: rest) acc = scanLatest rest acc := by
  conv_lhs => unfold scanLatest
  rw [if_pos hd]

theorem scanLatest_cons_data {α : Type} (e : Entry α) (rest : List (Entry α))
    (acc : Option Int) (hd : e.data.isEmpty = false) {M : String} {v : Int}
    (hM : listMax (keys e.data) = some M) (hv : parseDate M = some v) :
    scanLatest (e :: rest) acc = scanLatest rest (some (match acc with
      | none => v
      | some l => if l < v then v else l)) := by
  conv_lhs => unfold scanLatest
  rw [if_neg (by rw [hd]; exact Bool.noConfusion), hM]
  show (match parseDate M with
      | none => none
      | some d =>
        match acc with
        | none => scanLatest rest (some d)
        | some l => scanLatest rest (some (if l < d then d else l))) =
    scanLatest rest (some (match acc with
      | none => v
      | some l => if l < v then v else l))
  rw [hv]
  cases acc <;> rfl

theorem scanLatest_all_empty {α : Type} (entries : List (Entry α)) : ∀ acc : Option Int,
    (∀ e ∈ entries, e.data = []) → scanLatest entries acc = some acc := by
  induction entries with
  | nil => exact fun acc _ => rfl
  | cons e rest ih =>
    intro acc h
    rw [scanLatest_cons_empty e rest acc
      (by rw [h e (List.mem_cons_self e rest)]; rfl)]
    exact ih acc (fun e2 he2 => h e2 (List.mem_cons_of_mem e he2))

theorem scanLatest_eq {α : Type} (entries : List (Entry α)) : ∀ acc : Option Int,
    (∀ e ∈ entries, ∀ k ∈ keys e.data, (parseDate k).isSome = true) →
    scanLatest entries acc =
      some (optCombine acc (intMax ((entryDates entries).filterMap parseDate))) := by
  induction entries with
  | nil =>
    intro acc _
    cases acc <;> rfl
  | cons e rest ih =>
    intro acc hvalid
    have hrest : ∀ e2 ∈ rest, ∀ k ∈ keys e2.data, (parseDate k).isSome = true :=
      fun e2 he2 => hvalid e2 (List.mem_cons_of_mem e he2)
    have hdates : entryDates (e :: rest) = keys e.data ++ entryDates rest := rfl
    by_cases hd : e.data.isEmpty = true
    · have hke : keys e.data = [] := by
        rw [List.isEmpty_iff] at hd
        rw [hd]
        rfl
      rw [scanLatest_cons_empty e rest acc hd, ih acc hrest, hdates, hke,
        List.nil_append]
    · have hkne : keys e.data ≠ [] := by
        intro hke
        apply hd
        rw [List.isEmpty_iff]
        unfold keys at hke
        exact List.map_eq_nil.mp hke
      obtain ⟨M, v, hM, hv, hint⟩ := intMax_filterMap_parse (keys e.data) hkne
        (hvalid e (List.mem_cons_self e rest))
      rw [scanLatest_cons_data e rest acc (Bool.not_eq_true _ ▸ hd) hM hv]
      cases acc with
      | none =>
        rw [ih (some v) hrest, hdates, List.filterMap_append, intMax_append, hint]
        cases hr : intMax ((entryDates rest).filterMap parseDate) <;> rfl
      | some l =>
        rw [show (match (some l : Option Int) with
            | none => v
            | some l2 => if l2 < v then v else l2) = (if l < v then v else l) from rfl]
        rw [show (if l < v then v else l) = max l v from by split <;> omega]
        rw [ih (some (max l v)) hrest, hdates, List.filterMap_append, intMax_append, hint]
        cases hr : intMax ((entryDates rest).filterMap parseDate) with
        | none => rfl
        | some m => simp [optCombine, max_assoc]

/-! Claim theorems for the fetch-window selection. -/

/-- Claim C5: with isFirstRun true, and likewise whenever the existing
document is empty, the computed fetch start date is exactly 2020-01-01,
regardless of the existing data and of the current date. -/
theorem claim_C5 {α : Type} (existing_data : Dict (Entry α)) (now : Int) (b : Bool) :
    computeStartDate true existing_data now = some "2020-01-01" ∧
    computeStartDate b ([] : Dict (Entry α)) now = some "2020-01-01" := by
  constructor
  · unfold computeStartDate
    rw [if_pos (by simp)]
  · unfold computeStartDate
    rw [if_pos (by simp)]

/-- Claim C4: with isFirstRun false and a non-empty existing document whose
date keys all parse and that has at least one observation (so its maximum
observed day number M exists), the computed start date is the maximum
observed date across all instruments minus one day. -/
theorem claim_C4 {α : Type} (existing_data : Dict (Entry α)) (now M : Int)
    (hne : existing_data ≠ [])
    (hvalid : ∀ p ∈ existing_data, ∀ k ∈ keys p.2.data, (parseDate k).isSome = true)
    (hmax : specMaxDate existing_data = some M) :
    computeStartDate false existing_data now = some (formatDate (M - 1)) := by
  unfold computeStartDate
  rw [if_neg (by simp [List.isEmpty_iff, hne])]
  rw [scanLatest_eq (existing_data.map Prod.snd) none ?hv]
  case hv =>
    intro e he k hk
    obtain ⟨p, hp, hpe⟩ := List.mem_map.mp he
    exact hvalid p hp k (by rw [hpe]; exact hk)
  rw [show optCombine none
      (intMax ((entryDates (existing_data.map Prod.snd)).filterMap parseDate)) =
      specMaxDate existing_data from rfl]
  rw [hmax]

/-- Witness for C4 at the spec's example: two instruments with maximum dates
2023-01-10 and 2023-01-12; the computed start date is 2023-01-11. -/
theorem claim_C4_witness :
    (([(".A", ⟨"a", [("2023-01-10", (1 : Int))]⟩),
       (".B", ⟨"b", [("2023-01-12", 2), ("2023-01-05", 3)]⟩)] : Dict (Entry Int)) ≠ [] ∧
     (∀ p ∈ ([(".A", ⟨"a", [("2023-01-10", (1 : Int))]⟩),
        (".B", ⟨"b", [("2023-01-12", 2), ("2023-01-05", 3)]⟩)] : Dict (Entry Int)),
        ∀ k ∈ keys p.2.data, (parseDate k).isSome = true) ∧
     specMaxDate ([(".A", ⟨"a", [("2023-01-10", (1 : Int))]⟩),
        (".B", ⟨"b", [("2023-01-12", 2), ("2023-01-05", 3)]⟩)] : Dict (Entry Int)) =
       some (dayNumber 2023 1 12)) ∧
    computeStartDate false
      ([(".A", ⟨"a", [("2023-01-10", (1 : Int))]⟩),
        (".B", ⟨"b", [("2023-01-12", 2), ("2023-01-05", 3)]⟩)] : Dict (Entry Int))
      (dayNumber 2025 10 12) = some (formatDate (dayNumber 2023 1 12 - 1)) ∧
    formatDate (dayNumber 2023 1 12 - 1) = "2023-01-11" :=
  ⟨⟨by decide, by decide, by decide⟩,
   claim_C4 ([(".A", ⟨"a", [("2023-01-10", (1 : Int))]⟩),
      (".B", ⟨"b", [("2023-01-12", 2), ("2023-01-05", 3)]⟩)] : Dict (Entry Int))
     (dayNumber 2025 10 12) (dayNumber 2023 1 12) (by decide) (by decide) (by decide),
   by decide⟩

/-- Claim C6: with isFirstRun false and a non-empty existing document in
which no instrument has any observation, the computed start date is the
current date minus 1825 days. -/
theorem claim_C6 {α : Type} (existing_data : Dict (Entry α)) (now : Int)
    (hne : existing_data ≠ []) (hempty : ∀ p ∈ existing_data, p.2.data = []) :
    computeStartDate false existing_data now = some (formatDate (now - 1825)) := by
  unfold computeStartDate
  rw [if_neg (by simp [List.isEmpty_iff, hne])]
  rw [scanLatest_all_empty (existing_data.map Prod.snd) none ?he]
  case he =>
    intro e he2
    obtain ⟨p, hp, hpe⟩ := List.mem_map.mp he2
    rw [← hpe]
    exact hempty p hp
  have h5 : (365 * 5 : Int) = 1825 := by norm_num
  rw [show (match (some (none : Option Int) : Option (Option Int)) with
      | none => (none : Option String)
      | some (some latest) => some (formatDate (latest - 1))
      | some none => some (formatDate (now - 365 * 5))) =
    some (formatDate (now - 365 * 5)) from rfl]
  rw [h5]

/-- Witness for C6: one instrument, empty series; today 2025-10-12 gives
start date 2020-10-13 (1825 days earlier). -/
theorem claim_C6_witness :
    (([(".A", ⟨"a", ([] : Dict Int)⟩)] : Dict (Entry Int)) ≠ [] ∧
     (∀ p ∈ ([(".A", ⟨"a", ([] : Dict Int)⟩)] : Dict (Entry Int)), p.2.data = [])) ∧
    computeStartDate false ([(".A", ⟨"a", ([] : Dict Int)⟩)] : Dict (Entry Int))
      (dayNumber 2025 10 12) = some (formatDate (dayNumber 2025 10 12 - 1825)) ∧
    formatDate (dayNumber 2025 10 12 - 1825) = "2020-10-13" :=
  ⟨⟨by decide, by decide⟩,
   claim_C6 ([(".A", ⟨"a", ([] : Dict Int)⟩)] : Dict (Entry Int))
     (dayNumber 2025 10 12) (by decide) (by decide),
   by decide⟩

/-! Sanity anchors for the calendar model and the static tables. -/

theorem dayNumber_epoch : dayNumber 1970 1 1 = 719163 := by decide

theorem parseDate_anchor : parseDate "2023-01-12" = some (dayNumber 2023 1 12) := by decide

theorem formatDate_anchor_minus_one :
    formatDate (dayNumber 2023 1 12 - 1) = "2023-01-11" := by decide

theorem formatDate_anchor_leap :
    formatDate (dayNumber 2024 3 1 - 1) = "2024-02-29" := by decide

theorem formatDate_anchor_epoch : formatDate (dayNumber 2020 1 1) = "2020-01-01" := by decide

theorem parseDate_rejects_bad_day : parseDate "2023-02-29" = none := by decide

theorem parseDate_rejects_bad_month : parseDate "2023-13-01" = none := by decide

theorem ricOf_mapped : ricOf "MSFT" = "MSFT.O" := by decide

theorem ricOf_unmapped : ricOf "ZZZ" = "ZZZ" := by decide

theorem displayName_mapped : displayName "MSFT" = "Microsoft" := by decide

theorem displayName_unmapped : displayName "ZZZ" = "ZZZ" := by decide

end MarketDataManager
